import Mathlib

/-!
Verification of the club-portal repository's build-task coordinator
(`internal/store/store.go`), site snapshot builder (`internal/site/builder.go`)
and slug derivation (`internal/store/store.go`), as a shallow embedding.

Modelling conventions:
* `time.Time` instants are modelled as `Int` (UTC); the Go zero `time.Time{}`
  is `0`; `time.Duration` is `Int` (durations may be negative in Go).
* The SQL table holding `BuildTask` rows is a `List BuildTask` ordered by
  primary key, and the clubs table a `List Club`; GORM query/update calls are
  translated query-by-query.  The GORM-managed audit columns
  `created_at`/`updated_at` are bookkeeping outside the modelled fields.
* Go strings are Lean `String`s; the few `strings` package primitives used by
  the code are re-implemented over `String.data` so that they compute in the
  kernel.  Case folding and whitespace are modelled for ASCII plus the German
  letters that `slugify` special-cases, which covers every literal the
  repository processes.
* Storage faults (I/O errors) are outside the model: the only error value that
  the modelled code paths can produce is GORM's record-not-found.
-/

namespace ClubPortal

/-! ### Go string primitives -/

/-- Go `unicode.IsSpace`, modelled on the ASCII whitespace characters. -/
def isSpaceChar (c : Char) : Bool :=
  c = ' ' || c = '\t' || c = '\n' || c = '\x0b' || c = '\x0c' || c = '\r'

/-- Go `strings.TrimSpace`. -/
def goTrimSpace (s : String) : String :=
  String.mk (((s.data.dropWhile isSpaceChar).reverse.dropWhile isSpaceChar).reverse)

/-- Go `strings.ToLower` on one character (ASCII letters plus the German
capitals relevant to `slugify`). -/
def goLowerChar (c : Char) : Char :=
  if 'A' ≤ c ∧ c ≤ 'Z' then Char.ofNat (c.toNat + 32)
  else if c = 'Ä' then 'ä'
  else if c = 'Ö' then 'ö'
  else if c = 'Ü' then 'ü'
  else if c = 'ẞ' then 'ß'
  else c

/-- Go `strings.ToLower`. -/
def goToLower (s : String) : String := String.mk (s.data.map goLowerChar)

/-- Go `len(s)`: the UTF-8 byte length of a string. -/
def goLen (s : String) : Nat := s.data.foldl (fun n c => n + c.utf8Size) 0

/-- Lexicographic strict comparison of character lists.  Go compares strings
byte-wise; UTF-8 byte order coincides with code-point order, so this is Go's
`<` on strings. -/
def charListLt : List Char → List Char → Bool
  | [], [] => false
  | [], _ :: _ => true
  | _ :: _, [] => false
  | a :: as, b :: bs => if a = b then charListLt as bs else decide (a < b)

/-- Go `<` on strings. -/
def strLt (a b : String) : Bool := charListLt a.data b.data

/-! ### Store data model (`internal/store/store.go`) -/

def buildTaskKey : String := "site_build"
def buildStatusIdle : String := "idle"
def buildStatusPending : String := "pending"
def buildStatusRunning : String := "running"

/-- The `BuildTask` GORM model (modelled fields; see header note on the
GORM-managed audit timestamps). -/
structure BuildTask where
  ID : Nat := 0
  Key : String := ""
  Status : String := ""
  NextRunAt : Int := 0
  LastEventAt : Int := 0
deriving DecidableEq, Repr

instance : Inhabited BuildTask := ⟨{}⟩

/-- GORM `Save(&task)`: update the row whose primary key matches. -/
def saveById (tbl : List BuildTask) (t : BuildTask) : List BuildTask :=
  tbl.map (fun u => if u.ID = t.ID then t else u)

/-- GORM `Where("key = ?", buildTaskKey).First(&task)`. -/
def findByKey (tbl : List BuildTask) : Option BuildTask :=
  tbl.find? (fun t => t.Key = buildTaskKey)

/-- Auto-increment primary key assignment on `Create`. -/
def freshID (tbl : List BuildTask) : Nat :=
  tbl.foldl (fun m t => max m t.ID) 0 + 1

/-- Method `Store.EnqueueBuildTask` (store.go).  `now` is the `time.Now()` instant of
the call; the resulting table replaces the receiver's task row state. -/
def EnqueueBuildTask (now debounce : Int) (tbl : List BuildTask) : List BuildTask :=
  let debounce := if debounce < 0 then 0 else debounce
  let next := now + debounce
  match findByKey tbl with
  | none =>
      tbl ++ [{ ID := freshID tbl, Key := buildTaskKey, Status := buildStatusPending,
                NextRunAt := next, LastEventAt := now }]
  | some task =>
      let task := { task with NextRunAt := next, LastEventAt := now }
      let task :=
        if task.Status ≠ buildStatusRunning then { task with Status := buildStatusPending }
        else task
      saveById tbl task

/-- The only error the modelled code paths can produce. -/
inductive GormErr where
  | recordNotFound
deriving DecidableEq, Repr

/-- The WHERE clause of `ClaimBuildTask`'s conditional update:
`key = ? AND status = ? AND next_run_at <= ?`. -/
def claimMatches (now : Int) (t : BuildTask) : Bool :=
  t.Key = buildTaskKey && t.Status = buildStatusPending && t.NextRunAt ≤ now

/-- Return value of `Store.ClaimBuildTask`: `(task, found, err)` plus the
resulting table state. -/
structure ClaimResult where
  task : BuildTask
  found : Bool
  err : Option GormErr
  state : List BuildTask
deriving DecidableEq, Repr

/-- Method `Store.ClaimBuildTask` (store.go): a single conditional UPDATE setting
status to running, then a re-read; zero rows affected is converted to
`(zero task, found = false, nil error)` and the transaction rolls back. -/
def ClaimBuildTask (now : Int) (tbl : List BuildTask) : ClaimResult :=
  let updated := tbl.map (fun t =>
    if claimMatches now t then { t with Status := buildStatusRunning } else t)
  if tbl.countP (claimMatches now) = 0 then
    { task := {}, found := false, err := none, state := tbl }
  else
    match findByKey updated with
    | some task => { task := task, found := true, err := none, state := updated }
    | none => { task := {}, found := false, err := none, state := tbl }

/-- Method `Store.CompleteBuildTask` (store.go): re-read by primary key, then either
keep the row pending (another enqueue moved `next_run_at` into the future) or
set it idle and clear `next_run_at` to the zero time. -/
def CompleteBuildTask (now : Int) (taskID : Nat) (tbl : List BuildTask) :
    Option GormErr × List BuildTask :=
  match tbl.find? (fun t => t.ID = taskID) with
  | none => (some .recordNotFound, tbl)
  | some task =>
      let task :=
        if now < task.NextRunAt then { task with Status := buildStatusPending }
        else { task with Status := buildStatusIdle, NextRunAt := 0 }
      (none, saveById tbl task)

/-- Method `Store.RescheduleBuildTask` (store.go): unconditional UPDATE by primary
key setting status pending and `next_run_at = now + delay` (negative delays
clamped to zero). -/
def RescheduleBuildTask (now : Int) (taskID : Nat) (delay : Int) (tbl : List BuildTask) :
    List BuildTask :=
  let delay := if delay < 0 then 0 else delay
  let next := now + delay
  tbl.map (fun t =>
    if t.ID = taskID then { t with Status := buildStatusPending, NextRunAt := next } else t)

/-- A sequence of `EnqueueBuildTask` calls, each a `(now, debounce)` pair,
applied in order. -/
def enqueueRun (tbl : List BuildTask) (calls : List (Int × Int)) : List BuildTask :=
  calls.foldl (fun st c => EnqueueBuildTask c.1 c.2 st) tbl

/-- The status strings the coordinator writes. -/
def validStatus (s : String) : Prop :=
  s = buildStatusIdle ∨ s = buildStatusPending ∨ s = buildStatusRunning

instance : DecidablePred validStatus := fun s => by
  unfold validStatus
  infer_instance

/-- Well-formedness of the task table: primary keys are unique (the column is
a SQL primary key), at most one row carries the fixed logical key, and every
such row carries one of the three coordinator statuses. -/
structure WFTable (tbl : List BuildTask) : Prop where
  uniqueIDs : (tbl.map BuildTask.ID).Nodup
  singleton : (tbl.filter (fun t => t.Key = buildTaskKey)).length ≤ 1
  statuses : ∀ t ∈ tbl, t.Key = buildTaskKey → validStatus t.Status

/-! ### Site snapshot builder data (`internal/site/builder.go`) -/

/-- The `OpeningHour` GORM model fields the builder consumes. -/
structure OpeningHour where
  ID : Nat := 0
  ClubID : String := ""
  DayOfWeek : Int := 0
  OpensAt : String := ""
  ClosesAt : String := ""
  Note : String := ""
deriving DecidableEq, Repr

instance : Inhabited OpeningHour := ⟨{}⟩

/-- The `Course` GORM model fields the builder consumes. -/
structure Course where
  ID : Nat := 0
  ClubID : String := ""
  DayOfWeek : Int := 0
  Title : String := ""
  StartTime : String := ""
  EndTime : String := ""
  Location : String := ""
  Instructor : String := ""
  Level : String := ""
  Description : String := ""
deriving DecidableEq, Repr

instance : Inhabited Course := ⟨{}⟩

structure openingHourView where
  Day : String
  Open : String
  Close : String
  Note : String
deriving DecidableEq, Repr

structure courseView where
  Title : String
  Start : String
  End : String
  Location : String
  Instructor : String
  Level : String
  Description : String
deriving DecidableEq, Repr

structure scheduleSlotView where
  Time : String
  Courses : List courseView
deriving DecidableEq, Repr

structure scheduleDayView where
  Day : String
  Slots : List scheduleSlotView
deriving DecidableEq, Repr

/-- Function `weekdayLabel` (builder.go). -/
def weekdayLabel (day : Int) : String :=
  if day = 1 then "Montag"
  else if day = 2 then "Dienstag"
  else if day = 3 then "Mittwoch"
  else if day = 4 then "Donnerstag"
  else if day = 5 then "Freitag"
  else if day = 6 then "Samstag"
  else if day = 7 then "Sonntag"
  else ""

/-- Function `timeKey` (builder.go): zero-pad "H:MM" to "0H:MM" for comparison. -/
def timeKey (value : String) : String :=
  let value := goTrimSpace value
  if goLen value = 4 ∧ value.data.contains ':' then "0" ++ value else value

/-- Function `formatTimeRange` (builder.go). -/
def formatTimeRange (start endv : String) : String :=
  let start := goTrimSpace start
  let endv := goTrimSpace endv
  if start ≠ "" ∧ endv ≠ "" then start ++ " - " ++ endv
  else if start ≠ "" then start
  else if endv ≠ "" then endv
  else "nach Vereinbarung"

/-- The `byDay` map built by the first loop of `buildOpeningHours`: out-of-range
weekdays are skipped and the first record per weekday wins. -/
def buildByDay (hours : List OpeningHour) : Int → Option OpeningHour :=
  hours.foldl (fun m h =>
    if h.DayOfWeek < 1 ∨ 7 < h.DayOfWeek then m
    else if (m h.DayOfWeek).isSome then m
    else fun d => if d = h.DayOfWeek then some h else m d)
    (fun _ => none)

/-- The normalized entry `buildOpeningHours` emits for one weekday. -/
def openingEntry (hours : List OpeningHour) (day : Int) : openingHourView :=
  let hour := (buildByDay hours day).getD {}
  { Day := weekdayLabel day, Open := goTrimSpace hour.OpensAt,
    Close := goTrimSpace hour.ClosesAt, Note := goTrimSpace hour.Note }

/-- Whether an entry carries any non-empty open/close/note. -/
def entryNonEmpty (v : openingHourView) : Bool :=
  (v.Open != "") || (v.Close != "") || (v.Note != "")

/-- The loop range `for day := 1; day <= 7; day++`. -/
def weekdays : List Int := [1, 2, 3, 4, 5, 6, 7]

/-- Function `buildOpeningHours` (builder.go): returns the 7 normalized entries and the
`hasAny` flag. -/
def buildOpeningHours (hours : List OpeningHour) : List openingHourView × Bool :=
  let byDay := buildByDay hours
  weekdays.foldl (fun acc day =>
    let hour := (byDay day).getD {}
    let openVal := goTrimSpace hour.OpensAt
    let closeVal := goTrimSpace hour.ClosesAt
    let noteVal := goTrimSpace hour.Note
    (acc.1 ++ [{ Day := weekdayLabel day, Open := openVal, Close := closeVal, Note := noteVal }],
     acc.2 || (openVal != "") || (closeVal != "") || (noteVal != "")))
    ([], false)

/-- The `less` closure passed to `sort.Slice` in `buildSchedule`. -/
def courseLess (a b : Course) : Bool :=
  if a.DayOfWeek ≠ b.DayOfWeek then decide (a.DayOfWeek < b.DayOfWeek)
  else
    let startA := timeKey a.StartTime
    let startB := timeKey b.StartTime
    if startA ≠ startB then strLt startA startB
    else
      let endA := timeKey a.EndTime
      let endB := timeKey b.EndTime
      if endA ≠ endB then strLt endA endB
      else strLt a.Title b.Title

/-- The "does not come after" preorder induced by `courseLess`; `sort.Slice`
guarantees exactly that no later element is `less` than an earlier one. -/
def courseOrder (a b : Course) : Prop := courseLess b a = false

instance : DecidableRel courseOrder := fun _ _ =>
  inferInstanceAs (Decidable (_ = false))

/-- The `sort.Slice(courses, less)` call of `buildSchedule`, modelled as a
sort producing an order with no inversion with respect to `courseLess`. -/
def sortCourses (courses : List Course) : List Course :=
  List.insertionSort courseOrder courses

/-- Key `slotKey` as computed inside `buildSchedule`'s grouping loop. -/
def slotKeyOf (c : Course) : String := timeKey c.StartTime ++ "|" ++ timeKey c.EndTime

/-- The `courseView` literal appended to a slot. -/
def courseViewOf (c : Course) : courseView :=
  { Title := c.Title, Start := c.StartTime, End := c.EndTime, Location := c.Location,
    Instructor := c.Instructor, Level := c.Level, Description := c.Description }

/-- Apply `f` to the last element of a list (the functional rendering of the
Go code mutating through `currentDay`/`currentSlot` pointers, which always
point at the last day of `schedule` and the last slot of that day). -/
def updateLast {α : Type} (f : α → α) : List α → List α
  | [] => []
  | [a] => [f a]
  | a :: b :: rest => a :: updateLast f (b :: rest)

/-- The grouping loop state of `buildSchedule`: the schedule built so far,
`currentDayValue` (`none` while `currentDay == nil`) and `currentSlotKey`
(`none` while `currentSlot == nil`). -/
structure GroupState where
  schedule : List scheduleDayView
  dayValue : Option Int
  slotKey : Option String
deriving Repr

/-- One iteration of `buildSchedule`'s grouping loop. -/
def groupStep (st : GroupState) (c : Course) : GroupState :=
  if c.DayOfWeek < 1 ∨ 7 < c.DayOfWeek then st
  else
    let key := slotKeyOf c
    let st1 :=
      if st.dayValue ≠ some c.DayOfWeek then
        { schedule := st.schedule ++ [{ Day := weekdayLabel c.DayOfWeek, Slots := [] }],
          dayValue := some c.DayOfWeek,
          slotKey := none }
      else st
    let st2 :=
      if st1.slotKey ≠ some key then
        { st1 with
          schedule := updateLast (fun d =>
            { d with Slots := d.Slots ++
                [{ Time := formatTimeRange c.StartTime c.EndTime, Courses := [] }] })
            st1.schedule,
          slotKey := some key }
      else st1
    { st2 with
      schedule := updateLast (fun d =>
        { d with Slots := updateLast (fun s =>
            { s with Courses := s.Courses ++ [courseViewOf c] }) d.Slots })
        st2.schedule }

/-- Course weekday range check of the grouping loop. -/
def validDay (c : Course) : Bool := !(c.DayOfWeek < 1 || 7 < c.DayOfWeek)

/-- Function `buildSchedule` (builder.go). -/
def buildSchedule (courses : List Course) : List scheduleDayView × Bool :=
  if courses.length = 0 then ([], false)
  else
    let sorted := sortCourses courses
    let st := sorted.foldl groupStep { schedule := [], dayValue := none, slotKey := none }
    if st.schedule.length = 0 then ([], false) else (st.schedule, true)

/-- Modelled from the spec ("group consecutively into day→slot→list-of-courses,
preserving sort order"): split a list into maximal runs of consecutive elements
sharing a key. -/
def chunkBy {α κ : Type} [DecidableEq κ] (f : α → κ) : List α → List (List α)
  | [] => []
  | [a] => [[a]]
  | a :: b :: rest =>
      match chunkBy f (b :: rest) with
      | [] => [[a]]
      | g :: gs => if f a = f b then (a :: g) :: gs else [a] :: g :: gs

/-- Modelled from the spec: the slot built from one run of courses sharing a
start+end pair. -/
def slotViewOf (sg : List Course) : scheduleSlotView :=
  { Time := formatTimeRange (sg.headD {}).StartTime (sg.headD {}).EndTime,
    Courses := sg.map courseViewOf }

/-- Modelled from the spec: the day entry built from one run of courses
sharing a weekday, its slots the runs of identical start+end pairs. -/
def dayViewOf (g : List Course) : scheduleDayView :=
  { Day := weekdayLabel ((g.headD {}).DayOfWeek),
    Slots := (chunkBy slotKeyOf g).map slotViewOf }

/-- Modelled from the spec: the day→slot→courses grouping of an already
sorted course list, with invalid weekdays dropped. -/
def scheduleSpec (sorted : List Course) : List scheduleDayView :=
  (chunkBy (fun c => c.DayOfWeek) (sorted.filter validDay)).map dayViewOf

/-! ### Slug derivation (`internal/store/store.go`) -/

/-- The `Club` GORM model fields `uniqueSlug` queries (the profile fields the
slug logic never reads are omitted). -/
structure Club where
  ID : String := ""
  OwnerID : String := ""
  Name : String := ""
  Slug : String := ""
deriving DecidableEq, Repr

/-- The `strings.NewReplacer("ä","ae","ö","oe","ü","ue","ß","ss")` pass of
`slugify`. -/
def slugReplace (s : String) : String :=
  String.mk (s.data.foldr (fun c acc =>
    if c = 'ä' then 'a' :: 'e' :: acc
    else if c = 'ö' then 'o' :: 'e' :: acc
    else if c = 'ü' then 'u' :: 'e' :: acc
    else if c = 'ß' then 's' :: 's' :: acc
    else c :: acc) [])

/-- Go `strings.Trim(s, "-")`. -/
def trimDashes (s : String) : String :=
  String.mk (((s.data.dropWhile (fun c => c = '-')).reverse.dropWhile
    (fun c => c = '-')).reverse)

/-- Function `slugify` (store.go). -/
def slugify (input : String) : String :=
  let input := goTrimSpace (goToLower input)
  if input = "" then ""
  else
    let input := slugReplace input
    let out := input.data.foldl (fun (acc : List Char × Bool) r =>
      if 'a' ≤ r ∧ r ≤ 'z' then (acc.1 ++ [r], false)
      else if '0' ≤ r ∧ r ≤ '9' then (acc.1 ++ [r], false)
      else if acc.2 then acc
      else (acc.1 ++ ['-'], true)) ([], false)
    trimDashes (String.mk out.1)

/-- The COUNT query of `uniqueSlug`: rows with this slug, excluding the club
being updated when `currentClubID` is non-empty. -/
def slugConflicts (clubs : List Club) (currentClubID slug : String) : Nat :=
  clubs.countP (fun c => c.Slug == slug && (currentClubID == "" || c.ID != currentClubID))

/-- The unbounded suffix loop of `uniqueSlug`, with explicit fuel (the Go loop
runs until an unused suffix is found). -/
def uniqueSlugGo (clubs : List Club) (currentClubID base : String) :
    Nat → Nat → String → Option String
  | 0, _, _ => none
  | fuel + 1, i, slug =>
      if slugConflicts clubs currentClubID slug = 0 then some slug
      else uniqueSlugGo clubs currentClubID base fuel (i + 1) (base ++ "-" ++ Nat.repr i)

/-- Function `uniqueSlug` (store.go). -/
def uniqueSlug (clubs : List Club) (currentClubID desired : String) (fuel : Nat) :
    Option String :=
  let base := if desired = "" then "club" else desired
  uniqueSlugGo clubs currentClubID base fuel 2 base

/-! ### Helper lemmas about the task table -/

theorem find?_saveById {p : BuildTask → Bool} {tbl : List BuildTask} {task t' : BuildTask}
    (h : tbl.find? p = some task) (hid : t'.ID = task.ID) (hp : p t' = true) :
    (saveById tbl t').find? p = some t' := by
  induction tbl with
  | nil => simp at h
  | cons u us ih =>
    simp only [saveById, List.map_cons]
    by_cases hpu : p u = true
    · rw [List.find?_cons_of_pos _ hpu] at h
      injection h with h
      subst h
      rw [if_pos hid.symm]
      exact List.find?_cons_of_pos _ hp
    · rw [List.find?_cons_of_neg _ hpu] at h
      by_cases hu : u.ID = t'.ID
      · rw [if_pos hu]
        exact List.find?_cons_of_pos _ hp
      · rw [if_neg hu, List.find?_cons_of_neg _ hpu]
        exact ih h

theorem enqueue_nextRunAt (now d : Int) (tbl : List BuildTask) :
    ∃ t', findByKey (EnqueueBuildTask now d tbl) = some t'
      ∧ t'.NextRunAt = now + (if d < 0 then 0 else d) ∧ t'.LastEventAt = now := by
  cases h : findByKey tbl with
  | none =>
    have he : EnqueueBuildTask now d tbl
        = tbl ++ [{ ID := freshID tbl, Key := buildTaskKey, Status := buildStatusPending,
                    NextRunAt := now + (if d < 0 then 0 else d), LastEventAt := now }] := by
      simp only [EnqueueBuildTask, h]
    refine ⟨{ ID := freshID tbl, Key := buildTaskKey, Status := buildStatusPending,
              NextRunAt := now + (if d < 0 then 0 else d), LastEventAt := now }, ?_, rfl, rfl⟩
    rw [he]
    unfold findByKey at h ⊢
    rw [List.find?_append, h]
    simp
  | some task =>
    have hkey : task.Key = buildTaskKey := by simpa [findByKey] using List.find?_some h
    by_cases hs : task.Status = buildStatusRunning
    · refine ⟨{ task with
                NextRunAt := now + (if d < 0 then 0 else d), LastEventAt := now },
        ?_, rfl, rfl⟩
      have he : EnqueueBuildTask now d tbl
          = saveById tbl { task with
                           NextRunAt := now + (if d < 0 then 0 else d),
                           LastEventAt := now } := by
        simp [EnqueueBuildTask, h, hs]
      rw [he]
      exact find?_saveById h rfl (by simp [hkey])
    · refine ⟨{ task with
                Status := buildStatusPending,
                NextRunAt := now + (if d < 0 then 0 else d), LastEventAt := now }, ?_, rfl, rfl⟩
      have he : EnqueueBuildTask now d tbl
          = saveById tbl { task with
                           Status := buildStatusPending,
                           NextRunAt := now + (if d < 0 then 0 else d),
                           LastEventAt := now } := by
        simp [EnqueueBuildTask, h, hs]
      rw [he]
      exact find?_saveById h rfl (by simp [hkey])

theorem find?_updateWhere (taskID : Nat) (g : BuildTask → BuildTask)
    (hg : ∀ t, (g t).ID = t.ID) {tbl : List BuildTask} {task : BuildTask}
    (h : tbl.find? (fun t => t.ID = taskID) = some task) :
    (tbl.map (fun t => if t.ID = taskID then g t else t)).find? (fun t => t.ID = taskID)
      = some (g task) := by
  induction tbl with
  | nil => simp at h
  | cons u us ih =>
    rw [List.map_cons]
    by_cases hu : u.ID = taskID
    · rw [List.find?_cons_of_pos _ (by simpa using hu)] at h
      injection h with h
      subst h
      rw [if_pos hu]
      exact List.find?_cons_of_pos _ (by simp [hg, hu])
    · rw [List.find?_cons_of_neg _ (by simpa using hu)] at h
      rw [if_neg hu, List.find?_cons_of_neg _ (by simpa using hu)]
      exact ih h

/-- Claim C1 counterexample: a single `EnqueueBuildTask` call at time 10 with
debounce −5 leaves next-run-at 10, not 10 + (−5); so next-run-at does not
always equal the time of the last call plus its debounce argument. -/
theorem enqueue_next_run_not_always_time_plus_debounce :
    (findByKey (enqueueRun [] [(10, -5)])).map BuildTask.NextRunAt = some 10
    ∧ (10 : Int) ≠ 10 + (-5) :=
  ⟨by decide, by decide⟩

/-- Claim C1 (amended: the debounce argument of the last call is first clamped
below at zero): after any sequence of `EnqueueBuildTask` calls ending with a
call at time `t` with debounce `d`, from any starting table, the task's
next-run-at equals `t` plus the clamped `d` — the time of the last call alone
determines the deadline. -/
theorem enqueue_last_call_determines_next_run (tbl : List BuildTask)
    (calls : List (Int × Int)) (t d : Int) :
    (findByKey (enqueueRun tbl (calls ++ [(t, d)]))).map BuildTask.NextRunAt
      = some (t + (if d < 0 then 0 else d)) := by
  obtain ⟨t', h1, h2, _⟩ := enqueue_nextRunAt t d (enqueueRun tbl calls)
  have he : enqueueRun tbl (calls ++ [(t, d)]) = EnqueueBuildTask t d (enqueueRun tbl calls) := by
    simp [enqueueRun, List.foldl_append]
  rw [he, h1]
  simp [h2]

/-- Claim C10: a negative debounce passed to `EnqueueBuildTask` and a negative
delay passed to `RescheduleBuildTask` are clamped to zero, so the resulting
next-run-at equals (hence is never earlier than) the time of the call. -/
theorem negative_durations_clamped (now dE dR : Int) (taskID : Nat) (tbl : List BuildTask)
    (hE : dE < 0) (hR : dR < 0) :
    ((findByKey (EnqueueBuildTask now dE tbl)).map BuildTask.NextRunAt = some now)
    ∧ (∀ t ∈ RescheduleBuildTask now taskID dR tbl, t.ID = taskID → t.NextRunAt = now) := by
  constructor
  · obtain ⟨t', h1, h2, _⟩ := enqueue_nextRunAt now dE tbl
    rw [h1]
    simp [h2, hE]
  · intro t ht hid
    unfold RescheduleBuildTask at ht
    simp only [List.mem_map] at ht
    obtain ⟨u, hu, hEq⟩ := ht
    subst hEq
    by_cases h' : u.ID = taskID
    · simp [h', hR]
    · simp [h'] at hid

theorem negative_durations_clamped_witness :
    ((-3 : Int) < 0) ∧ ((-7 : Int) < 0)
    ∧ (((findByKey (EnqueueBuildTask 5 (-3) [])).map BuildTask.NextRunAt = some 5)
        ∧ (∀ t ∈ RescheduleBuildTask 5 1 (-7) [{ ID := 1 }], t.ID = 1 → t.NextRunAt = 5)) :=
  ⟨by decide, by decide, negative_durations_clamped 5 (-3) (-7) 1 [{ ID := 1 }] (by decide) (by decide)⟩

/-- Claim C4 counterexample: `RescheduleBuildTask` at time 10 with delay −5 on
an existing task produces next-run-at 10, not 10 + (−5). -/
theorem reschedule_not_always_now_plus_delay :
    (RescheduleBuildTask 10 1 (-5)
        [{ ID := 1, Key := "site_build", Status := "idle", NextRunAt := 99 }]).map
      BuildTask.NextRunAt = [10]
    ∧ (10 : Int) ≠ 10 + (-5) :=
  ⟨by decide, by decide⟩

/-- Claim C4 (amended: the delay is first clamped below at zero): for every
`RescheduleBuildTask` call on an existing task, regardless of prior status and
prior next-run-at, the task ends pending with next-run-at = now plus the
clamped delay. -/
theorem reschedule_always_pending_clamped_delay (now delay : Int) (taskID : Nat)
    (tbl : List BuildTask) (task : BuildTask)
    (h : tbl.find? (fun t => t.ID = taskID) = some task) :
    (RescheduleBuildTask now taskID delay tbl).find? (fun t => t.ID = taskID)
      = some { task with
               Status := buildStatusPending,
               NextRunAt := now + (if delay < 0 then 0 else delay) } := by
  have := find?_updateWhere taskID
    (fun t => { t with
                Status := buildStatusPending,
                NextRunAt := now + (if delay < 0 then 0 else delay) })
    (fun _ => rfl) h
  simpa [RescheduleBuildTask] using this

theorem reschedule_always_pending_clamped_delay_witness :
    (([{ ID := 1, NextRunAt := 99 }] : List BuildTask).find? (fun t => t.ID = 1)
        = some { ID := 1, NextRunAt := 99 })
    ∧ (RescheduleBuildTask 10 1 4 [{ ID := 1, NextRunAt := 99 }]).find? (fun t => t.ID = 1)
        = some { ({ ID := 1, NextRunAt := 99 } : BuildTask) with
                 Status := buildStatusPending,
                 NextRunAt := 10 + (if (4 : Int) < 0 then 0 else 4) } :=
  ⟨by decide, reschedule_always_pending_clamped_delay 10 4 1 _ _ (by decide)⟩

/-- Claim C3: `CompleteBuildTask` on an existing task returns no error, and:
if next-run-at is strictly after now, the task becomes pending with
next-run-at unchanged; otherwise it becomes idle with next-run-at cleared to
the zero timestamp. -/
theorem complete_sets_pending_or_idle (now : Int) (taskID : Nat)
    (tbl : List BuildTask) (task : BuildTask)
    (h : tbl.find? (fun t => t.ID = taskID) = some task) :
    (CompleteBuildTask now taskID tbl).1 = none
    ∧ ∃ t', ((CompleteBuildTask now taskID tbl).2.find? (fun t => t.ID = taskID) = some t'
        ∧ (now < task.NextRunAt →
            t'.Status = buildStatusPending ∧ t'.NextRunAt = task.NextRunAt)
        ∧ (¬ now < task.NextRunAt →
            t'.Status = buildStatusIdle ∧ t'.NextRunAt = 0)) := by
  have hid : task.ID = taskID := by simpa using List.find?_some h
  by_cases hf : now < task.NextRunAt
  · have he : CompleteBuildTask now taskID tbl
        = (none, saveById tbl { task with Status := buildStatusPending }) := by
      simp [CompleteBuildTask, h, hf]
    rw [he]
    exact ⟨rfl, { task with Status := buildStatusPending },
      find?_saveById h rfl (by simp [hid]),
      fun _ => ⟨rfl, rfl⟩, fun hc => absurd hf hc⟩
  · have he : CompleteBuildTask now taskID tbl
        = (none, saveById tbl { task with Status := buildStatusIdle, NextRunAt := 0 }) := by
      simp [CompleteBuildTask, h, hf]
    rw [he]
    exact ⟨rfl, { task with Status := buildStatusIdle, NextRunAt := 0 },
      find?_saveById h rfl (by simp [hid]),
      fun hc => absurd hc hf, fun _ => ⟨rfl, rfl⟩⟩

theorem complete_sets_pending_or_idle_witness :
    (([{ ID := 4, Key := "site_build", Status := "running", NextRunAt := 50 }] :
        List BuildTask).find? (fun t => t.ID = 4)
      = some { ID := 4, Key := "site_build", Status := "running", NextRunAt := 50 })
    ∧ ((CompleteBuildTask 20 4
          [{ ID := 4, Key := "site_build", Status := "running", NextRunAt := 50 }]).1 = none
        ∧ ∃ t', ((CompleteBuildTask 20 4
              [{ ID := 4, Key := "site_build", Status := "running", NextRunAt := 50 }]).2.find?
                (fun t => t.ID = 4) = some t'
            ∧ ((20 : Int) < 50 → t'.Status = buildStatusPending ∧ t'.NextRunAt = 50)
            ∧ (¬ (20 : Int) < 50 → t'.Status = buildStatusIdle ∧ t'.NextRunAt = 0))) :=
  ⟨by decide, complete_sets_pending_or_idle 20 4
    [{ ID := 4, Key := "site_build", Status := "running", NextRunAt := 50 }]
    { ID := 4, Key := "site_build", Status := "running", NextRunAt := 50 } (by decide)⟩

/-- Claim C5: `EnqueueBuildTask` on a running task only replaces that row by a
copy with refreshed next-run-at and last-event-at; its ID, key and (running)
status are unchanged, and no other row is touched (the whole effect is the
single `Save`). -/
theorem enqueue_running_only_refreshes_times (now d : Int) (tbl : List BuildTask)
    (task : BuildTask) (h : findByKey tbl = some task)
    (hs : task.Status = buildStatusRunning) :
    EnqueueBuildTask now d tbl
      = saveById tbl { task with
                       NextRunAt := now + (if d < 0 then 0 else d), LastEventAt := now }
    ∧ ∃ t', (findByKey (EnqueueBuildTask now d tbl) = some t'
        ∧ t'.ID = task.ID ∧ t'.Key = task.Key ∧ t'.Status = buildStatusRunning
        ∧ t'.NextRunAt = now + (if d < 0 then 0 else d) ∧ t'.LastEventAt = now) := by
  have hkey : task.Key = buildTaskKey := by simpa [findByKey] using List.find?_some h
  have he : EnqueueBuildTask now d tbl
      = saveById tbl { task with
                       NextRunAt := now + (if d < 0 then 0 else d), LastEventAt := now } := by
    simp [EnqueueBuildTask, h, hs]
  refine ⟨he, { task with
               NextRunAt := now + (if d < 0 then 0 else d), LastEventAt := now },
    ?_, rfl, rfl, hs, rfl, rfl⟩
  rw [he]
  exact find?_saveById h rfl (by simp [hkey])

theorem enqueue_running_only_refreshes_times_witness :
    (findByKey [{ ID := 2, Key := "site_build", Status := "running", NextRunAt := 30 }]
      = some { ID := 2, Key := "site_build", Status := "running", NextRunAt := 30 })
    ∧ (({ ID := 2, Key := "site_build", Status := "running", NextRunAt := 30 } :
          BuildTask).Status = buildStatusRunning)
    ∧ (EnqueueBuildTask 40 5 [{ ID := 2, Key := "site_build", Status := "running", NextRunAt := 30 }]
        = saveById [{ ID := 2, Key := "site_build", Status := "running", NextRunAt := 30 }]
            { ({ ID := 2, Key := "site_build", Status := "running", NextRunAt := 30 } :
                BuildTask) with
              NextRunAt := 40 + (if (5 : Int) < 0 then 0 else 5), LastEventAt := 40 }
        ∧ ∃ t', (findByKey (EnqueueBuildTask 40 5
              [{ ID := 2, Key := "site_build", Status := "running", NextRunAt := 30 }]) = some t'
            ∧ t'.ID = 2 ∧ t'.Key = "site_build" ∧ t'.Status = buildStatusRunning
            ∧ t'.NextRunAt = 40 + (if (5 : Int) < 0 then 0 else 5) ∧ t'.LastEventAt = 40)) :=
  ⟨by decide, by decide,
    enqueue_running_only_refreshes_times 40 5 _ _ (by decide) (by decide)⟩

theorem filter_len_le_one_eq {tbl : List BuildTask}
    (hs : (tbl.filter (fun t => t.Key = buildTaskKey)).length ≤ 1)
    {a b : BuildTask} (ha : a ∈ tbl) (hka : a.Key = buildTaskKey)
    (hb : b ∈ tbl) (hkb : b.Key = buildTaskKey) : a = b := by
  have ha' : a ∈ tbl.filter (fun t => t.Key = buildTaskKey) :=
    List.mem_filter.2 ⟨ha, by simp [hka]⟩
  have hb' : b ∈ tbl.filter (fun t => t.Key = buildTaskKey) :=
    List.mem_filter.2 ⟨hb, by simp [hkb]⟩
  cases hlist : tbl.filter (fun t => t.Key = buildTaskKey) with
  | nil => rw [hlist] at ha'; simp at ha'
  | cons x xs =>
    cases xs with
    | nil =>
      rw [hlist] at ha' hb'
      simp only [List.mem_singleton] at ha' hb'
      rw [ha', hb']
    | cons y ys =>
      rw [hlist] at hs
      simp [List.length_cons] at hs

theorem findByKey_claimUpdate (now : Int) {tbl : List BuildTask} {task : BuildTask}
    (h : findByKey tbl = some task) (hm : claimMatches now task = true) :
    findByKey (tbl.map (fun t =>
        if claimMatches now t then { t with Status := buildStatusRunning } else t))
      = some { task with Status := buildStatusRunning } := by
  induction tbl with
  | nil => simp [findByKey] at h
  | cons u us ih =>
    unfold findByKey at h ⊢
    rw [List.map_cons]
    by_cases hku : u.Key = buildTaskKey
    · rw [List.find?_cons_of_pos _ (by simpa using hku)] at h
      injection h with h
      subst h
      rw [if_pos hm]
      exact List.find?_cons_of_pos _ (by simpa using hku)
    · have hmu : claimMatches now u = false := by
        simp [claimMatches, hku]
      rw [List.find?_cons_of_neg _ (by simpa using hku)] at h
      rw [if_neg (by simp [hmu])]
      rw [List.find?_cons_of_neg _ (by simpa using hku)]
      exact ih h

/-- Claim C2: `ClaimBuildTask(now)` returns a nil error in every modelled case;
it succeeds exactly when the task row exists with status pending and
next-run-at ≤ now, in which case the returned task is that row with status
running and the stored row agrees; on failure the table is unchanged. -/
theorem claim_succeeds_iff_pending_due (now : Int) (tbl : List BuildTask)
    (hwf : WFTable tbl) :
    (ClaimBuildTask now tbl).err = none
    ∧ ((ClaimBuildTask now tbl).found = true
        ↔ ∃ task, findByKey tbl = some task
            ∧ task.Status = buildStatusPending ∧ task.NextRunAt ≤ now)
    ∧ ((ClaimBuildTask now tbl).found = true →
        ∃ task, findByKey tbl = some task
          ∧ (ClaimBuildTask now tbl).task = { task with Status := buildStatusRunning }
          ∧ findByKey (ClaimBuildTask now tbl).state = some (ClaimBuildTask now tbl).task)
    ∧ ((ClaimBuildTask now tbl).found = false → (ClaimBuildTask now tbl).state = tbl) := by
  by_cases hc : tbl.countP (claimMatches now) = 0
  · have hr : ClaimBuildTask now tbl
        = { task := {}, found := false, err := none, state := tbl } := by
      simp [ClaimBuildTask, hc]
    rw [hr]
    refine ⟨rfl, ?_, by simp, fun _ => rfl⟩
    constructor
    · intro h'
      simp at h'
    · rintro ⟨task, hfind, hst, hdue⟩
      have hmem : task ∈ tbl := List.mem_of_find?_eq_some hfind
      have hkey : task.Key = buildTaskKey := by simpa [findByKey] using List.find?_some hfind
      have hmt : claimMatches now task = true := by
        simp [claimMatches, hkey, hst, hdue]
      exact absurd hmt (List.countP_eq_zero.1 hc task hmem)
  · have hpos : 0 < tbl.countP (claimMatches now) := Nat.pos_of_ne_zero hc
    obtain ⟨u, hu, hmu⟩ := List.countP_pos_iff.1 hpos
    have hku : u.Key = buildTaskKey := by
      have h' := hmu
      simp only [claimMatches, Bool.and_eq_true, decide_eq_true_eq] at h'
      exact h'.1.1
    have hsome : (findByKey tbl).isSome := by
      rw [findByKey, List.find?_isSome]
      exact ⟨u, hu, by simpa using hku⟩
    obtain ⟨task₀, h₀⟩ := Option.isSome_iff_exists.1 hsome
    have hmem₀ : task₀ ∈ tbl := List.mem_of_find?_eq_some h₀
    have hk₀ : task₀.Key = buildTaskKey := by simpa [findByKey] using List.find?_some h₀
    have hEq : task₀ = u := filter_len_le_one_eq hwf.singleton hmem₀ hk₀ hu hku
    have hm₀ : claimMatches now task₀ = true := hEq ▸ hmu
    have hm₀' := hm₀
    simp only [claimMatches, Bool.and_eq_true, decide_eq_true_eq] at hm₀'
    have hfu := findByKey_claimUpdate now h₀ hm₀
    have hr : ClaimBuildTask now tbl
        = { task := { task₀ with Status := buildStatusRunning }, found := true, err := none,
            state := tbl.map (fun t =>
              if claimMatches now t then { t with Status := buildStatusRunning } else t) } := by
      unfold ClaimBuildTask
      rw [if_neg hc]
      rw [show findByKey (tbl.map (fun t =>
          if claimMatches now t then { t with Status := buildStatusRunning } else t))
        = some { task₀ with Status := buildStatusRunning } from hfu]
    rw [hr]
    refine ⟨rfl, ?_, fun _ => ⟨task₀, h₀, rfl, hfu⟩, by simp⟩
    constructor
    · intro _
      exact ⟨task₀, h₀, hm₀'.1.2, hm₀'.2⟩
    · intro _
      rfl

theorem claim_succeeds_iff_pending_due_witness :
    WFTable [{ ID := 1, Key := "site_build", Status := "pending", NextRunAt := 10 }]
    ∧ ((ClaimBuildTask 15
          [{ ID := 1, Key := "site_build", Status := "pending", NextRunAt := 10 }]).err = none
      ∧ ((ClaimBuildTask 15
          [{ ID := 1, Key := "site_build", Status := "pending", NextRunAt := 10 }]).found = true
        ↔ ∃ task, findByKey
              [{ ID := 1, Key := "site_build", Status := "pending", NextRunAt := 10 }] = some task
            ∧ task.Status = buildStatusPending ∧ task.NextRunAt ≤ 15)
      ∧ ((ClaimBuildTask 15
          [{ ID := 1, Key := "site_build", Status := "pending", NextRunAt := 10 }]).found = true →
          ∃ task, findByKey
              [{ ID := 1, Key := "site_build", Status := "pending", NextRunAt := 10 }] = some task
            ∧ (ClaimBuildTask 15
                [{ ID := 1, Key := "site_build", Status := "pending", NextRunAt := 10 }]).task
              = { task with Status := buildStatusRunning }
            ∧ findByKey (ClaimBuildTask 15
                [{ ID := 1, Key := "site_build", Status := "pending", NextRunAt := 10 }]).state
              = some (ClaimBuildTask 15
                [{ ID := 1, Key := "site_build", Status := "pending", NextRunAt := 10 }]).task)
      ∧ ((ClaimBuildTask 15
          [{ ID := 1, Key := "site_build", Status := "pending", NextRunAt := 10 }]).found = false →
          (ClaimBuildTask 15
            [{ ID := 1, Key := "site_build", Status := "pending", NextRunAt := 10 }]).state
          = [{ ID := 1, Key := "site_build", Status := "pending", NextRunAt := 10 }])) :=
  ⟨⟨by decide, by decide, by decide⟩,
    claim_succeeds_iff_pending_due 15 _ ⟨by decide, by decide, by decide⟩⟩

/-! ### Well-formedness preservation -/

theorem wf_map (tbl : List BuildTask) (g : BuildTask → BuildTask) (hwf : WFTable tbl)
    (hID : ∀ t ∈ tbl, (g t).ID = t.ID)
    (hKey : ∀ t ∈ tbl, (g t).Key = t.Key)
    (hSt : ∀ t ∈ tbl, (g t).Key = buildTaskKey → validStatus t.Status →
      validStatus (g t).Status) :
    WFTable (tbl.map g) := by
  refine ⟨?_, ?_, ?_⟩
  · rw [List.map_map]
    have he : tbl.map (BuildTask.ID ∘ g) = tbl.map BuildTask.ID :=
      List.map_congr_left (fun a ha => hID a ha)
    rw [he]
    exact hwf.uniqueIDs
  · rw [List.filter_map, List.length_map]
    have he : tbl.filter (fun t => decide ((g t).Key = buildTaskKey))
        = tbl.filter (fun t => decide (t.Key = buildTaskKey)) :=
      List.filter_congr (fun a ha => by simp [hKey a ha])
    calc (tbl.filter ((fun t => decide (t.Key = buildTaskKey)) ∘ g)).length
        = (tbl.filter (fun t => decide (t.Key = buildTaskKey))).length := by
          rw [show (fun t : BuildTask => decide (t.Key = buildTaskKey)) ∘ g
              = fun t => decide ((g t).Key = buildTaskKey) from rfl, he]
      _ ≤ 1 := hwf.singleton
  · intro t' ht' hk'
    obtain ⟨t, ht, rfl⟩ := List.mem_map.1 ht'
    have hkt : t.Key = buildTaskKey := (hKey t ht) ▸ hk'
    exact hSt t ht hk' (hwf.statuses t ht hkt)

theorem wf_saveById {tbl : List BuildTask} (hwf : WFTable tbl) {task t' : BuildTask}
    (htask : task ∈ tbl) (hID : t'.ID = task.ID) (hKey : t'.Key = task.Key)
    (hSt : t'.Key = buildTaskKey → validStatus t'.Status) :
    WFTable (saveById tbl t') := by
  apply wf_map tbl (fun u => if u.ID = t'.ID then t' else u) hwf
  · intro u _
    by_cases h' : u.ID = t'.ID
    · rw [if_pos h']; exact h'.symm
    · rw [if_neg h']
  · intro u hu
    by_cases h' : u.ID = t'.ID
    · rw [if_pos h']
      have hu' : u = task :=
        List.inj_on_of_nodup_map hwf.uniqueIDs hu htask (h'.trans hID)
      rw [hKey, hu']
    · rw [if_neg h']
  · intro u _ hk hv
    by_cases h' : u.ID = t'.ID
    · rw [if_pos h'] at hk ⊢
      exact hSt hk
    · rw [if_neg h'] at hk ⊢
      exact hv

theorem foldl_max_le (l : List BuildTask) :
    ∀ m : Nat, m ≤ l.foldl (fun acc t => max acc t.ID) m
      ∧ ∀ t ∈ l, t.ID ≤ l.foldl (fun acc t => max acc t.ID) m := by
  induction l with
  | nil => intro m; exact ⟨le_refl m, by simp⟩
  | cons u us ih =>
    intro m
    simp only [List.foldl_cons]
    obtain ⟨h1, h2⟩ := ih (max m u.ID)
    refine ⟨le_trans (le_max_left _ _) h1, ?_⟩
    intro t ht
    rcases List.mem_cons.1 ht with rfl | ht'
    · exact le_trans (le_max_right _ _) h1
    · exact h2 t ht'

theorem id_lt_freshID {tbl : List BuildTask} {t : BuildTask} (ht : t ∈ tbl) :
    t.ID < freshID tbl := by
  have := (foldl_max_le tbl 0).2 t ht
  unfold freshID
  omega

theorem WFTable_nil : WFTable [] := ⟨List.nodup_nil, by simp, by simp⟩

/-- Claim C6: each coordinator operation maps a well-formed task table to a
well-formed one — primary keys stay unique, at most one row carries the fixed
logical key (no operation creates a second), and every keyed row's status
remains one of idle, pending, running. -/
theorem coordinator_preserves_invariant (now dE delay : Int) (taskID : Nat)
    (tbl : List BuildTask) (hwf : WFTable tbl) :
    WFTable (EnqueueBuildTask now dE tbl)
    ∧ WFTable (ClaimBuildTask now tbl).state
    ∧ WFTable (CompleteBuildTask now taskID tbl).2
    ∧ WFTable (RescheduleBuildTask now taskID delay tbl) := by
  refine ⟨?_, ?_, ?_, ?_⟩
  · -- EnqueueBuildTask
    cases h : findByKey tbl with
    | none =>
      have he : EnqueueBuildTask now dE tbl
          = tbl ++ [{ ID := freshID tbl, Key := buildTaskKey, Status := buildStatusPending,
                      NextRunAt := now + (if dE < 0 then 0 else dE), LastEventAt := now }] := by
        simp only [EnqueueBuildTask, h]
      rw [he]
      have hnil : tbl.filter (fun t => t.Key = buildTaskKey) = [] := by
        rw [List.filter_eq_nil_iff]
        intro a ha
        have := List.find?_eq_none.1 h a ha
        simpa using this
      refine ⟨?_, ?_, ?_⟩
      · rw [List.map_append, List.nodup_append]
        refine ⟨hwf.uniqueIDs, by simp, ?_⟩
        intro x hx
        simp only [List.map_cons, List.map_nil, List.mem_singleton]
        obtain ⟨t, ht, rfl⟩ := List.mem_map.1 hx
        exact Nat.ne_of_lt (id_lt_freshID ht)
      · rw [List.filter_append, hnil]
        simp
      · intro t ht hk
        rcases List.mem_append.1 ht with h' | h'
        · exact hwf.statuses t h' hk
        · simp only [List.mem_singleton] at h'
          subst h'
          exact Or.inr (Or.inl rfl)
    | some task =>
      have hmem : task ∈ tbl := List.mem_of_find?_eq_some h
      have hkey : task.Key = buildTaskKey := by simpa [findByKey] using List.find?_some h
      by_cases hs : task.Status = buildStatusRunning
      · have he : EnqueueBuildTask now dE tbl
            = saveById tbl { task with
                             NextRunAt := now + (if dE < 0 then 0 else dE),
                             LastEventAt := now } := by
          simp [EnqueueBuildTask, h, hs]
        rw [he]
        exact wf_saveById hwf hmem rfl rfl (fun _ => Or.inr (Or.inr hs))
      · have he : EnqueueBuildTask now dE tbl
            = saveById tbl { task with
                             Status := buildStatusPending,
                             NextRunAt := now + (if dE < 0 then 0 else dE),
                             LastEventAt := now } := by
          simp [EnqueueBuildTask, h, hs]
        rw [he]
        exact wf_saveById hwf hmem rfl rfl (fun _ => Or.inr (Or.inl rfl))
  · -- ClaimBuildTask
    by_cases hc : tbl.countP (claimMatches now) = 0
    · have : (ClaimBuildTask now tbl).state = tbl := by simp [ClaimBuildTask, hc]
      rw [this]; exact hwf
    · have hupd : WFTable (tbl.map (fun t =>
          if claimMatches now t then { t with Status := buildStatusRunning } else t)) := by
        apply wf_map tbl _ hwf
        · intro u _
          by_cases h' : claimMatches now u = true <;> simp [h']
        · intro u _
          by_cases h' : claimMatches now u = true <;> simp [h']
        · intro u _ _ hv
          by_cases h' : claimMatches now u = true
          · simp only [h', if_true]
            exact Or.inr (Or.inr rfl)
          · simp only [h', if_false]
            exact hv
      unfold ClaimBuildTask
      rw [if_neg hc]
      cases hfk : findByKey (tbl.map (fun t =>
          if claimMatches now t then { t with Status := buildStatusRunning } else t)) with
      | none => exact hwf
      | some x => exact hupd
  · -- CompleteBuildTask
    cases h : tbl.find? (fun t => t.ID = taskID) with
    | none =>
      have : (CompleteBuildTask now taskID tbl).2 = tbl := by simp [CompleteBuildTask, h]
      rw [this]; exact hwf
    | some task =>
      have hmem : task ∈ tbl := List.mem_of_find?_eq_some h
      by_cases hf : now < task.NextRunAt
      · have he : (CompleteBuildTask now taskID tbl).2
            = saveById tbl { task with Status := buildStatusPending } := by
          simp [CompleteBuildTask, h, hf]
        rw [he]
        exact wf_saveById hwf hmem rfl rfl (fun _ => Or.inr (Or.inl rfl))
      · have he : (CompleteBuildTask now taskID tbl).2
            = saveById tbl { task with Status := buildStatusIdle, NextRunAt := 0 } := by
          simp [CompleteBuildTask, h, hf]
        rw [he]
        exact wf_saveById hwf hmem rfl rfl (fun _ => Or.inl rfl)
  · -- RescheduleBuildTask
    apply wf_map tbl _ hwf
    · intro u _
      by_cases h' : u.ID = taskID <;> simp [h']
    · intro u _
      by_cases h' : u.ID = taskID <;> simp [h']
    · intro u _ _ hv
      by_cases h' : u.ID = taskID
      · simp only [h', if_true]
        exact Or.inr (Or.inl rfl)
      · simp only [h', if_false]
        exact hv

theorem coordinator_preserves_invariant_witness :
    WFTable ([] : List BuildTask)
    ∧ (WFTable (EnqueueBuildTask 1 2 [])
      ∧ WFTable (ClaimBuildTask 1 []).state
      ∧ WFTable (CompleteBuildTask 1 3 []).2
      ∧ WFTable (RescheduleBuildTask 1 3 2 [])) :=
  ⟨WFTable_nil, coordinator_preserves_invariant 1 2 2 3 [] WFTable_nil⟩

/-! ### Slug uniqueness (claim C9) -/

theorem uniqueSlugGo_no_conflict (clubs : List Club) (cur base : String) :
    ∀ (fuel i : Nat) (slug s : String),
      uniqueSlugGo clubs cur base fuel i slug = some s →
      slugConflicts clubs cur s = 0 := by
  intro fuel
  induction fuel with
  | zero => intro i slug s h; simp [uniqueSlugGo] at h
  | succ n ih =>
    intro i slug s h
    unfold uniqueSlugGo at h
    by_cases hc : slugConflicts clubs cur slug = 0
    · rw [if_pos hc] at h
      injection h with h
      subst h
      exact hc
    · rw [if_neg hc] at h
      exact ih _ _ _ h

/-- Claim C9: `slugify` derives "sv-adler" from "SV Adler" (lowercasing and
dash-joining) and transliterates umlauts; `uniqueSlug` keeps the base slug when
free and appends the numeric suffix 2 on first collision, so two clubs named
"SV Adler" get "sv-adler" and "sv-adler-2"; and any slug `uniqueSlug` returns
conflicts with no other club's slug. -/
theorem slug_globally_unique :
    slugify "SV Adler" = "sv-adler"
    ∧ uniqueSlug [] "" (slugify "SV Adler") 8 = some "sv-adler"
    ∧ uniqueSlug [{ ID := "c1", Name := "SV Adler", Slug := "sv-adler" }] ""
        (slugify "SV Adler") 8 = some "sv-adler-2"
    ∧ slugify "TuS Grün-Weiß" = "tus-gruen-weiss"
    ∧ ∀ (clubs : List Club) (cur desired : String) (fuel : Nat) (s : String),
        uniqueSlug clubs cur desired fuel = some s →
        ∀ c ∈ clubs, (cur = "" ∨ c.ID ≠ cur) → c.Slug ≠ s := by
  refine ⟨by decide, by decide, by decide, by decide, ?_⟩
  intro clubs cur desired fuel s h c hc hcur hslug
  have h0 : slugConflicts clubs cur s = 0 := uniqueSlugGo_no_conflict clubs cur _ fuel 2 _ _ h
  have hnone := List.countP_eq_zero.1 h0 c hc
  apply hnone
  have hbeq : (c.Slug == s) = true := by simp [hslug]
  rcases hcur with hcur | hcur
  · simp [hbeq, hcur]
  · simp [hbeq, hcur]

theorem slug_globally_unique_witness :
    (uniqueSlug [{ ID := "c1", Slug := "sv-adler" }] "" "sv-adler" 8 = some "sv-adler-2")
    ∧ ({ ID := "c1", Slug := "sv-adler" } : Club) ∈ [({ ID := "c1", Slug := "sv-adler" } : Club)]
    ∧ ("" = "" ∨ ({ ID := "c1", Slug := "sv-adler" } : Club).ID ≠ "")
    ∧ ({ ID := "c1", Slug := "sv-adler" } : Club).Slug ≠ "sv-adler-2" :=
  ⟨by decide, by decide, Or.inl rfl,
    slug_globally_unique.2.2.2.2 [{ ID := "c1", Slug := "sv-adler" }] "" "sv-adler" 8 "sv-adler-2"
      (by decide) _ (by decide) (Or.inl rfl)⟩

/-! ### Opening hours normalization (claim C7) -/

theorem foldl_preserve_mem {α β : Type} (f : β → α → β) (P : β → Prop) :
    ∀ (l : List α) (b : β), (∀ a ∈ l, ∀ x, P x → P (f x a)) → P b → P (l.foldl f b) := by
  intro l
  induction l with
  | nil => intro b _ hb; exact hb
  | cons u us ih =>
    intro b hstep hb
    simp only [List.foldl_cons]
    exact ih _ (fun a ha x hx => hstep a (List.mem_cons_of_mem _ ha) x hx)
      (hstep u (List.mem_cons_self u us) b hb)

theorem buildByDay_none (hours : List OpeningHour) (d : Int)
    (hd : ∀ h ∈ hours, h.DayOfWeek ≠ d) : buildByDay hours d = none := by
  unfold buildByDay
  refine foldl_preserve_mem _ (fun m => m d = none) hours (fun _ => none) ?_ rfl
  intro a ha m hm
  dsimp only
  by_cases h1 : a.DayOfWeek < 1 ∨ 7 < a.DayOfWeek
  · rw [if_pos h1]; exact hm
  · rw [if_neg h1]
    by_cases h2 : (m a.DayOfWeek).isSome
    · rw [if_pos h2]; exact hm
    · rw [if_neg h2]
      show (if d = a.DayOfWeek then some a else m d) = none
      rw [if_neg (Ne.symm (hd a ha))]
      exact hm

theorem get_weekdays_map {β : Type} (f : Int → β) (i : Nat)
    (hi : i < (weekdays.map f).length) :
    (weekdays.map f).get ⟨i, hi⟩ = f ((i : Int) + 1) := by
  have hi7 : i < 7 := by simpa [weekdays] using hi
  interval_cases i <;> rfl

theorem foldl_map_any {α : Type} (f : α → openingHourView) (g : α → Bool)
    (step : List openingHourView × Bool → α → List openingHourView × Bool)
    (hstep : ∀ acc a, step acc a = (acc.1 ++ [f a], acc.2 || g a)) :
    ∀ (l : List α) (acc), l.foldl step acc = (acc.1 ++ l.map f, acc.2 || l.any g) := by
  intro l
  induction l with
  | nil => intro acc; simp
  | cons u us ih =>
    intro acc
    rw [List.foldl_cons, hstep, ih]
    simp [Bool.or_assoc]

theorem buildOpeningHours_eq (hours : List OpeningHour) :
    buildOpeningHours hours
      = (weekdays.map (openingEntry hours),
         weekdays.any (fun d => entryNonEmpty (openingEntry hours d))) := by
  simp only [buildOpeningHours]
  refine (foldl_map_any (openingEntry hours)
    (fun d => entryNonEmpty (openingEntry hours d)) _ ?_ weekdays ([], false)).trans ?_
  · intro acc a
    simp [openingEntry, entryNonEmpty, Bool.or_assoc]
  · simp

/-- Claim C7: `buildOpeningHours` returns exactly 7 entries labelled Monday=1
through Sunday=7 in order; a weekday with no record gets an empty
open/close/note placeholder; and the flag is true exactly when some entry has
a non-empty open, close or note after trimming. -/
theorem buildOpeningHours_normalizes (hours : List OpeningHour) :
    (buildOpeningHours hours).1.length = 7
    ∧ (∀ i : Nat, ∀ hi : i < (buildOpeningHours hours).1.length,
        ((buildOpeningHours hours).1.get ⟨i, hi⟩).Day = weekdayLabel ((i : Int) + 1))
    ∧ (∀ i : Nat, ∀ hi : i < (buildOpeningHours hours).1.length,
        (∀ h ∈ hours, h.DayOfWeek ≠ ((i : Int) + 1)) →
        ((buildOpeningHours hours).1.get ⟨i, hi⟩).Open = ""
        ∧ ((buildOpeningHours hours).1.get ⟨i, hi⟩).Close = ""
        ∧ ((buildOpeningHours hours).1.get ⟨i, hi⟩).Note = "")
    ∧ ((buildOpeningHours hours).2 = true
        ↔ ∃ v ∈ (buildOpeningHours hours).1, v.Open ≠ "" ∨ v.Close ≠ "" ∨ v.Note ≠ "") := by
  rw [buildOpeningHours_eq]
  refine ⟨by simp [weekdays], ?_, ?_, ?_⟩
  · intro i hi
    rw [get_weekdays_map]
    rfl
  · intro i hi hno
    have hnone : buildByDay hours ((i : Int) + 1) = none := buildByDay_none hours _ hno
    refine ⟨?_, ?_, ?_⟩ <;> rw [get_weekdays_map] <;> unfold openingEntry <;> rw [hnone] <;> rfl
  · simp only [List.any_eq_true, List.mem_map, entryNonEmpty, Bool.or_eq_true, bne_iff_ne,
      ne_eq]
    constructor
    · rintro ⟨d, hd, hne⟩
      exact ⟨openingEntry hours d, ⟨d, hd, rfl⟩, by tauto⟩
    · rintro ⟨v, ⟨d, hd, rfl⟩, hne⟩
      exact ⟨d, hd, by tauto⟩

theorem buildOpeningHours_normalizes_witness :
    ((buildOpeningHours [{ DayOfWeek := 1, OpensAt := "09:00" }]).1.length = 7)
    ∧ (2 < (buildOpeningHours [{ DayOfWeek := 1, OpensAt := "09:00" }]).1.length)
    ∧ (∀ h ∈ [({ DayOfWeek := 1, OpensAt := "09:00" } : OpeningHour)],
        h.DayOfWeek ≠ ((2 : Nat) : Int) + 1)
    ∧ (((buildOpeningHours [{ DayOfWeek := 1, OpensAt := "09:00" }]).1.get
          ⟨2, by decide⟩).Open = ""
        ∧ ((buildOpeningHours [{ DayOfWeek := 1, OpensAt := "09:00" }]).1.get
          ⟨2, by decide⟩).Close = ""
        ∧ ((buildOpeningHours [{ DayOfWeek := 1, OpensAt := "09:00" }]).1.get
          ⟨2, by decide⟩).Note = "")
    ∧ ((buildOpeningHours [{ DayOfWeek := 1, OpensAt := "09:00" }]).2 = true
        ↔ ∃ v ∈ (buildOpeningHours [{ DayOfWeek := 1, OpensAt := "09:00" }]).1,
            v.Open ≠ "" ∨ v.Close ≠ "" ∨ v.Note ≠ "") :=
  ⟨(buildOpeningHours_normalizes _).1, by decide, by decide,
    (buildOpeningHours_normalizes [{ DayOfWeek := 1, OpensAt := "09:00" }]).2.2.1 2
      (by decide) (by decide),
    (buildOpeningHours_normalizes _).2.2.2⟩

/-! ### Course comparator theory (claim C8) -/

theorem charListLt_asymm : ∀ {x y : List Char},
    charListLt x y = true → charListLt y x = true → False := by
  intro x
  induction x with
  | nil =>
    intro y h1 h2
    cases y with
    | nil => simp [charListLt] at h1
    | cons b bs => simp [charListLt] at h2
  | cons a as ih =>
    intro y h1 h2
    cases y with
    | nil => simp [charListLt] at h1
    | cons b bs =>
      simp only [charListLt] at h1 h2
      by_cases hab : a = b
      · rw [if_pos hab] at h1
        rw [if_pos hab.symm] at h2
        exact ih h1 h2
      · rw [if_neg hab] at h1
        rw [if_neg (Ne.symm hab)] at h2
        simp only [decide_eq_true_eq] at h1 h2
        exact lt_asymm h1 h2

theorem charListLt_trans : ∀ {x y z : List Char},
    charListLt x y = true → charListLt y z = true → charListLt x z = true := by
  intro x
  induction x with
  | nil =>
    intro y z h1 h2
    cases y with
    | nil => simp [charListLt] at h1
    | cons b bs =>
      cases z with
      | nil => simp [charListLt] at h2
      | cons c cs => simp [charListLt]
  | cons a as ih =>
    intro y z h1 h2
    cases y with
    | nil => simp [charListLt] at h1
    | cons b bs =>
      cases z with
      | nil => simp [charListLt] at h2
      | cons c cs =>
        simp only [charListLt] at h1 h2 ⊢
        by_cases hab : a = b
        · subst hab
          rw [if_pos rfl] at h1
          by_cases hbc : a = c
          · subst hbc
            rw [if_pos rfl] at h2 ⊢
            exact ih h1 h2
          · rw [if_neg hbc] at h2 ⊢
            exact h2
        · rw [if_neg hab] at h1
          by_cases hbc : b = c
          · subst hbc
            rw [if_neg hab]
            exact h1
          · rw [if_neg hbc] at h2
            simp only [decide_eq_true_eq] at h1 h2
            have hac : a < c := lt_trans h1 h2
            rw [if_neg (ne_of_lt hac)]
            simp [hac]

theorem charListLt_conn : ∀ {x y : List Char},
    x ≠ y → charListLt x y = true ∨ charListLt y x = true := by
  intro x
  induction x with
  | nil =>
    intro y hxy
    cases y with
    | nil => exact absurd rfl hxy
    | cons b bs => left; simp [charListLt]
  | cons a as ih =>
    intro y hxy
    cases y with
    | nil => right; simp [charListLt]
    | cons b bs =>
      by_cases hab : a = b
      · subst hab
        have hne : as ≠ bs := fun h => hxy (by rw [h])
        rcases ih hne with h | h
        · left; simp [charListLt, h]
        · right; simp [charListLt, h]
      · rcases lt_or_gt_of_ne hab with h | h
        · left; simp [charListLt, hab, h]
        · right; simp [charListLt, Ne.symm hab, h]

theorem strLt_asymm (x y : String) : strLt x y = true → strLt y x = true → False :=
  fun h1 h2 => charListLt_asymm h1 h2

theorem strLt_trans (x y z : String) : strLt x y = true → strLt y z = true → strLt x z = true :=
  fun h1 h2 => charListLt_trans h1 h2

theorem strLt_conn (x y : String) (h : x ≠ y) : strLt x y = true ∨ strLt y x = true :=
  charListLt_conn (fun hd => h (by cases x; cases y; exact congrArg String.mk hd))

theorem intLtB_asymm (x y : Int) : decide (x < y) = true → decide (y < x) = true → False := by
  intro h1 h2
  simp only [decide_eq_true_eq] at h1 h2
  omega

theorem intLtB_trans (x y z : Int) :
    decide (x < y) = true → decide (y < z) = true → decide (x < z) = true := by
  intro h1 h2
  simp only [decide_eq_true_eq] at h1 h2 ⊢
  omega

theorem intLtB_conn (x y : Int) (h : x ≠ y) :
    decide (x < y) = true ∨ decide (y < x) = true := by
  simp only [decide_eq_true_eq]
  omega

theorem level_asymm {α : Type} [DecidableEq α] (lt : α → α → Bool)
    (ltA : ∀ x y, lt x y = true → lt y x = true → False)
    (ka kb : α) (restAB restBA : Bool)
    (hrest : restAB = true → restBA = true → False)
    (h1 : (if ka ≠ kb then lt ka kb else restAB) = true)
    (h2 : (if kb ≠ ka then lt kb ka else restBA) = true) : False := by
  by_cases hab : ka = kb
  · rw [if_neg (not_not_intro hab)] at h1
    rw [if_neg (not_not_intro hab.symm)] at h2
    exact hrest h1 h2
  · rw [if_pos hab] at h1
    rw [if_pos (Ne.symm hab)] at h2
    exact ltA _ _ h1 h2

theorem level_split {α : Type} [DecidableEq α] (lt : α → α → Bool)
    (ltA : ∀ x y, lt x y = true → lt y x = true → False)
    (ltT : ∀ x y z, lt x y = true → lt y z = true → lt x z = true)
    (ltC : ∀ x y, x ≠ y → lt x y = true ∨ lt y x = true)
    (ka kb kc : α) (restAB restBC restAC : Bool)
    (hrest : restAC = true → restAB = true ∨ restBC = true)
    (h : (if ka ≠ kc then lt ka kc else restAC) = true) :
    (if ka ≠ kb then lt ka kb else restAB) = true
    ∨ (if kb ≠ kc then lt kb kc else restBC) = true := by
  by_cases hac : ka = kc
  · rw [if_neg (not_not_intro hac)] at h
    by_cases hab : ka = kb
    · rw [if_neg (not_not_intro hab)]
      rw [if_neg (not_not_intro (hab.symm.trans hac))]
      exact hrest h
    · rcases ltC _ _ hab with hlt | hgt
      · left
        rw [if_pos hab]
        exact hlt
      · right
        have hgt' : lt kb kc = true := hac ▸ hgt
        have hbc : kb ≠ kc := fun hEq => ltA _ _ hgt' (hEq ▸ hgt')
        rw [if_pos hbc]
        exact hgt'
  · rw [if_pos hac] at h
    by_cases hab : ka = kb
    · right
      have hbc : kb ≠ kc := fun hEq => hac (hab.trans hEq)
      rw [if_pos hbc]
      exact hab ▸ h
    · rcases ltC _ _ hab with hlt | hgt
      · left
        rw [if_pos hab]
        exact hlt
      · right
        have hlt2 : lt kb kc = true := ltT _ _ _ hgt h
        have hbc : kb ≠ kc := fun hEq => ltA _ _ h (hEq ▸ hgt)
        rw [if_pos hbc]
        exact hlt2

theorem courseLess_asymm {a b : Course} :
    courseLess a b = true → courseLess b a = true → False := by
  intro h1 h2
  simp only [courseLess] at h1 h2
  exact level_asymm _ intLtB_asymm _ _ _ _
    (fun hr1 hr2 => level_asymm _ strLt_asymm _ _ _ _
      (fun hr1' hr2' => level_asymm _ strLt_asymm _ _ _ _
        (fun ht1 ht2 => strLt_asymm _ _ ht1 ht2) hr1' hr2')
      hr1 hr2)
    h1 h2

theorem courseLess_split (a b c : Course) (h : courseLess a c = true) :
    courseLess a b = true ∨ courseLess b c = true := by
  simp only [courseLess] at h ⊢
  have htitle : strLt a.Title c.Title = true →
      strLt a.Title b.Title = true ∨ strLt b.Title c.Title = true := by
    intro ht
    by_cases htab : a.Title = b.Title
    · right
      exact htab ▸ ht
    · rcases strLt_conn _ _ htab with hlt | hgt
      · left
        exact hlt
      · right
        exact strLt_trans _ _ _ hgt ht
  exact level_split _ intLtB_asymm intLtB_trans intLtB_conn _ _ _ _ _ _
    (fun hr => level_split _ strLt_asymm strLt_trans strLt_conn _ _ _ _ _ _
      (fun hr' => level_split _ strLt_asymm strLt_trans strLt_conn _ _ _ _ _ _
        htitle hr')
      hr)
    h

instance : IsTrans Course courseOrder := by
  constructor
  intro a b c hab hbc
  show courseLess c a = false
  by_contra hca
  simp only [Bool.not_eq_false] at hca
  rcases courseLess_split c b a hca with h | h
  · have : courseLess c b = false := hbc
    rw [this] at h
    cases h
  · have : courseLess b a = false := hab
    rw [this] at h
    cases h

instance : IsTotal Course courseOrder := by
  constructor
  intro a b
  by_cases h : courseLess b a = true
  · right
    show courseLess a b = false
    by_cases h2 : courseLess a b = true
    · exact (courseLess_asymm h2 h).elim
    · simpa using h2
  · left
    show courseLess b a = false
    simpa using h

/-! ### Grouping machinery (claim C8) -/

theorem updateLast_concat {α : Type} (u : α → α) :
    ∀ (xs : List α) (x : α), updateLast u (xs ++ [x]) = xs ++ [u x] := by
  intro xs
  induction xs with
  | nil => intro x; rfl
  | cons a xs ih =>
    intro x
    cases xs with
    | nil => rfl
    | cons b ys =>
      show updateLast u (a :: ((b :: ys) ++ [x])) = a :: ((b :: ys) ++ [u x])
      rw [show (b :: ys) ++ [x] = b :: (ys ++ [x]) from rfl, updateLast,
        show (b : α) :: (ys ++ [x]) = (b :: ys) ++ [x] from rfl, ih]

theorem chunkBy_ne_nil {α κ : Type} [DecidableEq κ] (f : α → κ) (a : α) (l : List α) :
    chunkBy f (a :: l) ≠ [] := by
  cases l with
  | nil => simp [chunkBy]
  | cons b bs =>
    simp only [chunkBy]
    cases chunkBy f (b :: bs) with
    | nil => simp
    | cons g gs => by_cases h : f a = f b <;> simp [h]

theorem getLast?_ne_nil {α : Type} {l : List α} {p : α} (h : l.getLast? = some p) :
    l ≠ [] := by
  intro hnil
  subst hnil
  simp at h

theorem headD_concat {α : Type} {l : List α} (h : l ≠ []) (c d : α) :
    (l ++ [c]).headD d = l.headD d := by
  cases l with
  | nil => exact absurd rfl h
  | cons a as => rfl

theorem chunkBy_append_same {α κ : Type} [DecidableEq κ] (f : α → κ) :
    ∀ (xs : List α) (p c : α), xs.getLast? = some p → f p = f c →
      chunkBy f (xs ++ [c]) = updateLast (fun g => g ++ [c]) (chunkBy f xs) := by
  intro xs
  induction xs with
  | nil => intro p c hp _; simp at hp
  | cons a xs ih =>
    intro p c hp hf
    cases xs with
    | nil =>
      rw [List.getLast?_singleton] at hp
      injection hp with hp
      subst hp
      show chunkBy f [a, c] = updateLast (fun g => g ++ [c]) [[a]]
      simp only [chunkBy, updateLast]
      rw [if_pos hf]
      rfl
    | cons b ys =>
      rw [List.getLast?_cons_cons] at hp
      have ihh := ih p c hp hf
      obtain ⟨g, gs, hgs⟩ : ∃ g gs, chunkBy f (b :: ys) = g :: gs := by
        cases hcb : chunkBy f (b :: ys) with
        | nil => exact absurd hcb (chunkBy_ne_nil f b ys)
        | cons g gs => exact ⟨g, gs, rfl⟩
      show chunkBy f (a :: ((b :: ys) ++ [c])) = _
      rw [show (b :: ys) ++ [c] = b :: (ys ++ [c]) from rfl]
      simp only [chunkBy]
      rw [show (b : α) :: (ys ++ [c]) = (b :: ys) ++ [c] from rfl, ihh, hgs]
      cases gs with
      | nil =>
        simp only [updateLast]
        by_cases hfab : f a = f b <;> simp [hfab, updateLast]
      | cons g2 gs2 =>
        simp only [updateLast]
        by_cases hfab : f a = f b <;> simp [hfab, updateLast]

theorem chunkBy_append_diff {α κ : Type} [DecidableEq κ] (f : α → κ) :
    ∀ (xs : List α) (p c : α), xs.getLast? = some p → f p ≠ f c →
      chunkBy f (xs ++ [c]) = chunkBy f xs ++ [[c]] := by
  intro xs
  induction xs with
  | nil => intro p c hp _; simp at hp
  | cons a xs ih =>
    intro p c hp hf
    cases xs with
    | nil =>
      rw [List.getLast?_singleton] at hp
      injection hp with hp
      subst hp
      show chunkBy f [a, c] = [[a]] ++ [[c]]
      simp only [chunkBy]
      rw [if_neg hf]
      rfl
    | cons b ys =>
      rw [List.getLast?_cons_cons] at hp
      have ihh := ih p c hp hf
      obtain ⟨g, gs, hgs⟩ : ∃ g gs, chunkBy f (b :: ys) = g :: gs := by
        cases hcb : chunkBy f (b :: ys) with
        | nil => exact absurd hcb (chunkBy_ne_nil f b ys)
        | cons g gs => exact ⟨g, gs, rfl⟩
      show chunkBy f (a :: ((b :: ys) ++ [c])) = _
      rw [show (b :: ys) ++ [c] = b :: (ys ++ [c]) from rfl]
      simp only [chunkBy]
      rw [show (b : α) :: (ys ++ [c]) = (b :: ys) ++ [c] from rfl, ihh, hgs]
      by_cases hfab : f a = f b <;> simp [hfab]

theorem chunkBy_last_decomp {α κ : Type} [DecidableEq κ] (f : α → κ) :
    ∀ (xs : List α) (p : α), xs.getLast? = some p →
      ∃ D g, chunkBy f xs = D ++ [g] ∧ g.getLast? = some p := by
  intro xs
  induction xs with
  | nil => intro p hp; simp at hp
  | cons a xs ih =>
    intro p hp
    cases xs with
    | nil =>
      rw [List.getLast?_singleton] at hp
      injection hp with hp
      subst hp
      exact ⟨[], [a], rfl, List.getLast?_singleton a⟩
    | cons b ys =>
      rw [List.getLast?_cons_cons] at hp
      obtain ⟨D, g, hD, hg⟩ := ih p hp
      have hgne : g ≠ [] := getLast?_ne_nil hg
      cases D with
      | nil =>
        by_cases hfab : f a = f b
        · refine ⟨[], a :: g, ?_, ?_⟩
          · simp only [chunkBy]
            rw [hD]
            simp [hfab]
          · cases g with
            | nil => exact absurd rfl hgne
            | cons g0 g1 => rw [List.getLast?_cons_cons]; exact hg
        · refine ⟨[[a]], g, ?_, hg⟩
          simp only [chunkBy]
          rw [hD]
          simp [hfab]
      | cons D0 Ds =>
        by_cases hfab : f a = f b
        · refine ⟨(a :: D0) :: Ds, g, ?_, hg⟩
          simp only [chunkBy]
          rw [hD, show (D0 :: Ds) ++ [g] = D0 :: (Ds ++ [g]) from rfl]
          simp [hfab]
        · refine ⟨[a] :: D0 :: Ds, g, ?_, hg⟩
          simp only [chunkBy]
          rw [hD, show (D0 :: Ds) ++ [g] = D0 :: (Ds ++ [g]) from rfl]
          simp [hfab]

theorem updateLast_updateLast {α : Type} (u v : α → α) :
    ∀ l : List α, updateLast v (updateLast u l) = updateLast (fun x => v (u x)) l := by
  intro l
  induction l with
  | nil => rfl
  | cons a l ih =>
    cases l with
    | nil => rfl
    | cons b bs =>
      show updateLast v (a :: updateLast u (b :: bs))
          = a :: updateLast (fun x => v (u x)) (b :: bs)
      obtain ⟨x, xs, hx⟩ : ∃ x xs, updateLast u (b :: bs) = x :: xs := by
        cases bs with
        | nil => exact ⟨u b, [], rfl⟩
        | cons b2 bs2 => exact ⟨b, updateLast u (b2 :: bs2), rfl⟩
      rw [hx, updateLast, ← hx, ih]

theorem groupStep_invalid (st : GroupState) (c : Course)
    (hv : c.DayOfWeek < 1 ∨ 7 < c.DayOfWeek) : groupStep st c = st := by
  simp [groupStep, hv]

theorem groupStep_new_day (st : GroupState) (c : Course)
    (hv : ¬(c.DayOfWeek < 1 ∨ 7 < c.DayOfWeek))
    (hd : st.dayValue ≠ some c.DayOfWeek) :
    groupStep st c
      = { schedule := st.schedule ++
            [{ Day := weekdayLabel c.DayOfWeek,
               Slots := [{ Time := formatTimeRange c.StartTime c.EndTime,
                           Courses := [courseViewOf c] }] }],
          dayValue := some c.DayOfWeek, slotKey := some (slotKeyOf c) } := by
  simp only [groupStep, if_neg hv, if_pos hd]
  rw [if_pos (show (none : Option String) ≠ some (slotKeyOf c) by simp)]
  rw [updateLast_concat, updateLast_concat]
  simp [updateLast]

theorem groupStep_new_slot (st : GroupState) (c : Course)
    (hv : ¬(c.DayOfWeek < 1 ∨ 7 < c.DayOfWeek))
    (hd : st.dayValue = some c.DayOfWeek)
    (hk : st.slotKey ≠ some (slotKeyOf c)) :
    groupStep st c
      = { schedule := updateLast (fun d =>
            { d with Slots := d.Slots ++
                [{ Time := formatTimeRange c.StartTime c.EndTime,
                   Courses := [courseViewOf c] }] }) st.schedule,
          dayValue := st.dayValue, slotKey := some (slotKeyOf c) } := by
  simp only [groupStep, if_neg hv, if_neg (not_not_intro hd), if_pos hk]
  rw [updateLast_updateLast]
  congr 1
  exact congrArg (fun F => updateLast F st.schedule)
    (funext fun d => by simp [updateLast_concat])

theorem groupStep_same_slot (st : GroupState) (c : Course)
    (hv : ¬(c.DayOfWeek < 1 ∨ 7 < c.DayOfWeek))
    (hd : st.dayValue = some c.DayOfWeek)
    (hk : st.slotKey = some (slotKeyOf c)) :
    groupStep st c
      = { schedule := updateLast (fun d =>
            { d with Slots := updateLast (fun s =>
                { s with Courses := s.Courses ++ [courseViewOf c] }) d.Slots }) st.schedule,
          dayValue := st.dayValue, slotKey := st.slotKey } := by
  simp only [groupStep, if_neg hv, if_neg (not_not_intro hd), if_neg (not_not_intro hk)]

theorem groupRun_spec (l : List Course) :
    (l.foldl groupStep { schedule := [], dayValue := none, slotKey := none }).schedule
        = scheduleSpec l
    ∧ (l.foldl groupStep { schedule := [], dayValue := none, slotKey := none }).dayValue
        = ((l.filter validDay).getLast?).map (fun c => c.DayOfWeek)
    ∧ (l.foldl groupStep { schedule := [], dayValue := none, slotKey := none }).slotKey
        = ((l.filter validDay).getLast?).map slotKeyOf := by
  induction l using List.reverseRecOn with
  | nil => exact ⟨rfl, rfl, rfl⟩
  | append_singleton xs c ih =>
    obtain ⟨ihs, ihd, ihk⟩ := ih
    rw [List.foldl_append, List.foldl_cons, List.foldl_nil]
    set st := xs.foldl groupStep { schedule := [], dayValue := none, slotKey := none } with hst
    by_cases hv : c.DayOfWeek < 1 ∨ 7 < c.DayOfWeek
    · have hvc : validDay c = false := by
        simp [validDay]
        omega
      have hfil : (xs ++ [c]).filter validDay = xs.filter validDay := by
        rw [List.filter_append]
        simp [hvc]
      rw [groupStep_invalid st c hv]
      exact ⟨by rw [ihs]; simp only [scheduleSpec, hfil],
        by rw [ihd, hfil], by rw [ihk, hfil]⟩
    · have hvc : validDay c = true := by
        simp [validDay]
        omega
      have hfil : (xs ++ [c]).filter validDay = xs.filter validDay ++ [c] := by
        rw [List.filter_append]
        simp [hvc]
      have hlast : ((xs ++ [c]).filter validDay).getLast? = some c := by
        rw [hfil, List.getLast?_concat]
      cases hfl : (xs.filter validDay).getLast? with
      | none =>
        have hnil : xs.filter validDay = [] := List.getLast?_eq_none_iff.1 hfl
        have hdv : st.dayValue = none := by rw [ihd, hfl]; rfl
        have hsch : st.schedule = [] := by
          rw [ihs]
          simp [scheduleSpec, hnil, chunkBy]
        rw [groupStep_new_day st c hv (by rw [hdv]; simp)]
        refine ⟨?_, by rw [hlast]; rfl, by rw [hlast]; rfl⟩
        rw [hsch]
        simp only [scheduleSpec, hfil, hnil, List.nil_append]
        simp [chunkBy, dayViewOf, slotViewOf]
      | some p =>
        have hdv : st.dayValue = some p.DayOfWeek := by rw [ihd, hfl]; rfl
        have hkv : st.slotKey = some (slotKeyOf p) := by rw [ihk, hfl]; rfl
        obtain ⟨D, gd, hD, hgd⟩ := chunkBy_last_decomp (fun c => c.DayOfWeek) _ p hfl
        have hgdne : gd ≠ [] := getLast?_ne_nil hgd
        have hsch : st.schedule = D.map dayViewOf ++ [dayViewOf gd] := by
          rw [ihs]
          simp [scheduleSpec, hD]
        by_cases hday : p.DayOfWeek = c.DayOfWeek
        · by_cases hslot : slotKeyOf p = slotKeyOf c
          · -- same day, same slot: the course joins the last slot of the last day
            obtain ⟨S, gs, hS, hgs⟩ := chunkBy_last_decomp slotKeyOf gd p hgd
            have hgsne : gs ≠ [] := getLast?_ne_nil hgs
            have hslotView : slotViewOf (gs ++ [c])
                = { Time := (slotViewOf gs).Time,
                    Courses := (slotViewOf gs).Courses ++ [courseViewOf c] } := by
              simp only [slotViewOf, headD_concat hgsne, List.map_append, List.map_cons,
                List.map_nil]
            have hdayView : dayViewOf (gd ++ [c])
                = { Day := (dayViewOf gd).Day,
                    Slots := updateLast (fun s =>
                      { s with Courses := s.Courses ++ [courseViewOf c] })
                      (dayViewOf gd).Slots } := by
              simp only [dayViewOf, headD_concat hgdne]
              rw [chunkBy_append_same slotKeyOf gd p c hgd hslot, hS, updateLast_concat]
              simp only [List.map_append, List.map_cons, List.map_nil]
              rw [updateLast_concat, hslotView]
            rw [groupStep_same_slot st c hv (by rw [hdv, hday]) (by rw [hkv, hslot])]
            refine ⟨?_, by dsimp only; rw [hdv, hday, hlast]; rfl, by dsimp only; rw [hkv, hslot, hlast]; rfl⟩
            rw [hsch, updateLast_concat]
            simp only [scheduleSpec, hfil]
            rw [chunkBy_append_same (fun c => c.DayOfWeek) _ p c hfl hday, hD,
              updateLast_concat]
            simp only [List.map_append, List.map_cons, List.map_nil]
            rw [hdayView]
          · -- same day, new slot: a fresh slot is appended to the last day
            have hdayView : dayViewOf (gd ++ [c])
                = { Day := (dayViewOf gd).Day,
                    Slots := (dayViewOf gd).Slots ++ [slotViewOf [c]] } := by
              simp only [dayViewOf, headD_concat hgdne]
              rw [chunkBy_append_diff slotKeyOf gd p c hgd hslot, List.map_append]
              simp
            rw [groupStep_new_slot st c hv (by rw [hdv, hday]) (by rw [hkv]; simp [hslot])]
            refine ⟨?_, by dsimp only; rw [hdv, hday, hlast]; rfl, by rw [hlast]; rfl⟩
            rw [hsch, updateLast_concat]
            simp only [scheduleSpec, hfil]
            rw [chunkBy_append_same (fun c => c.DayOfWeek) _ p c hfl hday, hD,
              updateLast_concat]
            simp only [List.map_append, List.map_cons, List.map_nil]
            rw [hdayView]
            simp [slotViewOf]
        · -- new day appended
          rw [groupStep_new_day st c hv (by rw [hdv]; simp [hday])]
          refine ⟨?_, by rw [hlast]; rfl, by rw [hlast]; rfl⟩
          rw [hsch]
          simp only [scheduleSpec, hfil]
          rw [chunkBy_append_diff (fun c => c.DayOfWeek) _ p c hfl hday, List.map_append, hD,
            List.map_append]
          simp [dayViewOf, slotViewOf, chunkBy]

/-- Claim C8: `buildSchedule` sorts courses with no inversion with respect to
the (weekday, zero-padded start, zero-padded end, title) comparator — "9:00"
and "09:00" compare equal via `timeKey` — and groups the sorted list
consecutively into day entries of slot entries (one slot per identical
start+end pair), preserving that order and dropping courses whose weekday is
outside 1..7; the flag is true exactly when some course has weekday in 1..7. -/
theorem buildSchedule_spec (courses : List Course) :
    (buildSchedule courses).1 = scheduleSpec (sortCourses courses)
    ∧ List.Sorted courseOrder (sortCourses courses)
    ∧ (sortCourses courses).Perm courses
    ∧ timeKey "9:00" = "09:00" ∧ timeKey "09:00" = "09:00"
    ∧ ((buildSchedule courses).2 = true
        ↔ ∃ c ∈ courses, 1 ≤ c.DayOfWeek ∧ c.DayOfWeek ≤ 7) := by
  have hs := (groupRun_spec (sortCourses courses)).1
  have hperm : (sortCourses courses).Perm courses := List.perm_insertionSort courseOrder courses
  have hsorted : List.Sorted courseOrder (sortCourses courses) :=
    List.sorted_insertionSort courseOrder courses
  refine ⟨?_, hsorted, hperm, by decide, by decide, ?_⟩
  · by_cases hlen : courses.length = 0
    · have hcnil : courses = [] := List.length_eq_zero.1 hlen
      subst hcnil
      rfl
    · simp only [buildSchedule, if_neg hlen]
      by_cases hsch : ((sortCourses courses).foldl groupStep
          { schedule := [], dayValue := none, slotKey := none }).schedule.length = 0
      · rw [if_pos hsch]
        have hnil : ((sortCourses courses).foldl groupStep
            { schedule := [], dayValue := none, slotKey := none }).schedule = [] :=
          List.length_eq_zero.1 hsch
        rw [← hs, hnil]
      · rw [if_neg hsch]
        exact hs
  · have hvalid : ∀ c : Course, validDay c = true ↔ 1 ≤ c.DayOfWeek ∧ c.DayOfWeek ≤ 7 := by
      intro c
      rw [show validDay c = !(decide (c.DayOfWeek < 1) || decide (7 < c.DayOfWeek)) from rfl]
      cases h1 : decide (c.DayOfWeek < 1) <;> cases h7 : decide (7 < c.DayOfWeek) <;> simp at h1 h7 ⊢ <;> omega
    by_cases hlen : courses.length = 0
    · have hcnil : courses = [] := List.length_eq_zero.1 hlen
      subst hcnil
      simp [buildSchedule]
    · simp only [buildSchedule, if_neg hlen]
      by_cases hsch : ((sortCourses courses).foldl groupStep
          { schedule := [], dayValue := none, slotKey := none }).schedule.length = 0
      · rw [if_pos hsch]
        constructor
        · intro h
          exact absurd h (by decide)
        · rintro ⟨c, hc, h1, h7⟩
          exfalso
          have hcs : c ∈ sortCourses courses := hperm.mem_iff.2 hc
          have hcf : c ∈ (sortCourses courses).filter validDay :=
            List.mem_filter.2 ⟨hcs, (hvalid c).2 ⟨h1, h7⟩⟩
          have hschnil : ((sortCourses courses).foldl groupStep
              { schedule := [], dayValue := none, slotKey := none }).schedule = [] :=
            List.length_eq_zero.1 hsch
          rw [hs] at hschnil
          have hchunk : chunkBy (fun c => c.DayOfWeek)
              ((sortCourses courses).filter validDay) = [] := by
            simp only [scheduleSpec] at hschnil
            exact List.map_eq_nil_iff.1 hschnil
          cases hfil : (sortCourses courses).filter validDay with
          | nil => rw [hfil] at hcf; simp at hcf
          | cons y ys =>
            rw [hfil] at hchunk
            exact chunkBy_ne_nil _ y ys hchunk
      · rw [if_neg hsch]
        constructor
        · intro _
          have hschne : ((sortCourses courses).foldl groupStep
              { schedule := [], dayValue := none, slotKey := none }).schedule ≠ [] :=
            fun hnil => hsch (by rw [hnil]; rfl)
          rw [hs] at hschne
          cases hfil : (sortCourses courses).filter validDay with
          | nil =>
            exfalso
            apply hschne
            simp [scheduleSpec, hfil, chunkBy]
          | cons y ys =>
            have hy : y ∈ (sortCourses courses).filter validDay := by
              rw [hfil]
              exact List.mem_cons_self _ _
            have hyv := List.mem_filter.1 hy
            exact ⟨y, hperm.mem_iff.1 hyv.1, (hvalid y).1 hyv.2⟩
        · intro _
          rfl

end ClubPortal
